import Mathlib

/-!
Verification of the `ulib::mapreduce` header (src/ext2/mapreduce/mapreduce.h):
a shallow embedding of the mapper / reducer / partitioner / task / job
components, and proofs of the partitioning, aggregation and locking
properties stated for them.

The header is generic infrastructure: the keyed store (`store.h`), the
dataset container (`dataset.h`), the thread primitive (`ulib/thread.h`)
and the bit mixer (`ulib/rand_tpl.h`) are external collaborators; where a
definition depends on one of them it is modelled from the specification
of that collaborator's interface and says so in its doc comment.
-/

namespace ulib

namespace mapreduce

/-- The work ranges computed by `job::exec` (mapreduce.h lines 204-211):
`len = datasetSize / ntask` (integer division), workers `0 .. ntask-2`
get the half-open range `[len*i, len*(i+1))`, and the last worker gets
`[len*(ntask-1), datasetSize)`. -/
def workRanges (S N : Nat) : List (Nat × Nat) :=
  ((List.range (N - 1)).map fun i => (S / N * i, S / N * (i + 1))) ++
    [(S / N * (N - 1), S)]

/-- The dataset indices covered by a half-open work range `[b, e)`. -/
def rangeIdx (r : Nat × Nat) : List Nat := List.range' r.1 (r.2 - r.1)

/-- A concrete mapper (mapreduce.h lines 73-100): `key()` and `value()`
are pure, deterministic functions of the bound record (spec §4.1); a
derived mapper is therefore characterized by the two functions. -/
structure mapper (R K V : Type) where
  key : R → K
  value : R → V

/-- Modelled from the spec: the keyed storage collaborator (`store.h`,
not under src/) holds at most one accumulated value per key; `none`
means the key has never been observed (spec §6). -/
def Store (K V : Type) : Type := K → Option V

/-- The store before any entry has been created. -/
def Store.empty {K V : Type} : Store K V := fun _ => none

/-- Modelled from the spec: `store[key]` looks up or default-creates the
entry for `key` (spec §6: "default-constructing an entry on first
access"); `dflt` is the default-constructed value. -/
def Store.getOrCreate {K V : Type} (s : Store K V) (dflt : V) (k : K) : V :=
  (s k).getD dflt

/-- Writing back the merged value into the entry for `k`. -/
def Store.set {K V : Type} [DecidableEq K] (s : Store K V) (k : K) (v : V) :
    Store K V :=
  fun q => if q = k then some v else s q

/-- One iteration of the loop in `task::run` (mapreduce.h lines 163-168):
construct the mapper `M m(*i)`, then `R(_store[m.key()]) += m.value()` —
the reducer's `+=` (the user-supplied merge `plusEq`, via
`associative::operator+=`, lines 52-57) is applied in place to the
looked-up-or-created entry for the record's key. -/
def task.step {R K V : Type} [DecidableEq K] (m : mapper R K V)
    (plusEq : V → V → V) (dflt : V) (s : Store K V) (r : R) : Store K V :=
  Store.set s (m.key r)
    (plusEq (Store.getOrCreate s dflt (m.key r)) (m.value r))

/-- `task::run` (mapreduce.h lines 160-170) over the records of its
range, in range order, starting from store `s`. -/
def task.runOn {R K V : Type} [DecidableEq K] (m : mapper R K V)
    (plusEq : V → V → V) (dflt : V) (s : Store K V) (recs : List R) :
    Store K V :=
  recs.foldl (task.step m plusEq dflt) s

/-- The contiguous sub-range `[b, e)` of the dataset handed to one task
(the `_dataset.begin() + len*i` iterator pairs in `job::exec`). -/
def slice {R : Type} (ds : List R) (b e : Nat) : List R :=
  (ds.drop b).take (e - b)

/-- The per-worker record lists created by `job::exec`. -/
def job.slices {R : Type} (ds : List R) (N : Nat) : List (List R) :=
  (workRanges ds.length N).map fun r => slice ds r.1 r.2

/-- `job::exec` under the sequential schedule: the tasks' loops run one
after another in task order (for `N = 1` this is the only schedule). -/
def job.execSeq {R K V : Type} [DecidableEq K] (m : mapper R K V)
    (plusEq : V → V → V) (dflt : V) (ds : List R) (N : Nat) : Store K V :=
  (job.slices ds N).foldl (fun s w => task.runOn m plusEq dflt s w) Store.empty

/-- Modelled from the spec: `l` is an order-preserving interleaving of
the lists in `lss` — at each step exactly one list contributes its head.
These are the global merge orders a concurrent run of the per-worker
loops can produce, each lock-protected lookup-merge being a single
serialized step (spec §5: merges on a key are serialized, never
interleaved at sub-operation granularity; the threads of `ulib/thread.h`
are preemptively scheduled). -/
inductive Interleaving {α : Type} : List (List α) → List α → Prop where
  | done (n : Nat) : Interleaving (List.replicate n []) []
  | step (pre : List (List α)) (x : α) (xs : List α) (post : List (List α))
      (l : List α) :
      Interleaving (pre ++ xs :: post) l →
      Interleaving (pre ++ (x :: xs) :: post) (x :: l)

/-- The per-key synchronization events a task issues (mapreduce.h lines
165-167): `_store.lock(m.key())`, the `_store[m.key()]` access with its
in-place merge, and `_store.unlock(m.key())`. -/
inductive Event (K : Type) where
  | lock (k : K)
  | access (k : K)
  | unlock (k : K)
deriving DecidableEq

/-- The event trace of `task::run` (lines 163-168): for each record of
the range in order, lock its key, access/merge that key's entry, unlock
that key. Each of the three events names the key returned by a separate
call of `m.key()` on the same record — equal keys, since `mapper::key`
is a pure function of the record (spec §4.1). -/
def taskTrace {R K V : Type} (m : mapper R K V) : List R → List (Event K)
  | [] => []
  | r :: rs =>
      Event.lock (m.key r) :: Event.access (m.key r) ::
        Event.unlock (m.key r) :: taskTrace m rs

/-- Checks that a trace consists of complete `lock k; access k; unlock k`
blocks: the released lock names the same key as the acquired one, the
store access between them is to that same key, and no lock is held
across a block boundary (so at most one lock is ever held). -/
def disciplined {K : Type} [DecidableEq K] : List (Event K) → Bool
  | [] => true
  | Event.lock k :: Event.access k1 :: Event.unlock k2 :: es =>
      decide (k1 = k) && decide (k2 = k) && disciplined es
  | _ => false

/-- Is the event a lock acquisition? -/
def isLock {K : Type} : Event K → Bool
  | Event.lock _ => true
  | _ => false

/-- Is the event a lock release? -/
def isUnlock {K : Type} : Event K → Bool
  | Event.unlock _ => true
  | _ => false

/-- Number of lock acquisitions in a trace. -/
def countLocks {K : Type} (t : List (Event K)) : Nat := t.countP isLock

/-- Number of lock releases in a trace. -/
def countUnlocks {K : Type} (t : List (Event K)) : Nat := t.countP isUnlock

/-- Spec-side reference for the single-worker claim (spec §8): the
sequential fold that applies the Mapper and then the Combiner to every
record of the dataset in original dataset order, starting from an empty
store — each record's value is merged into the (possibly
default-created) accumulated value of its key. -/
def seqMapCombine {R K V : Type} [DecidableEq K] (m : mapper R K V)
    (plusEq : V → V → V) (dflt : V) (ds : List R) : Store K V :=
  ds.foldl
    (fun s r => fun q =>
      if q = m.key r then
        some (plusEq ((s (m.key r)).getD dflt) (m.value r))
      else s q)
    Store.empty

/-- Folding a list of incoming values into one optional store entry:
`none` is an entry that does not exist yet; each merge default-creates
it if needed and combines the incoming value in. -/
def applyVals {V : Type} (plusEq : V → V → V) (dflt : V)
    (o : Option V) (vs : List V) : Option V :=
  vs.foldl (fun o v => some (plusEq (o.getD dflt) v)) o

/-- `partitioner` (mapreduce.h lines 114-143): wraps an intermediate key. -/
structure partitioner (K : Type) where
  key : K

/-- Modelled from the spec: `RAND_INT3_MIX64` is defined in
`ulib/rand_tpl.h`, which is not part of this tree; the spec (§3, §4.2)
requires only a deterministic, well-distributed bit-mixing function on a
64-bit word. A murmur-style finalizer on `Nat % 2^64`. -/
def RAND_INT3_MIX64 (h0 : Nat) : Nat :=
  let h1 := (h0 ^^^ h0 >>> 33) % 2 ^ 64
  let h2 := h1 * 0xff51afd7ed558ccd % 2 ^ 64
  let h3 := (h2 ^^^ h2 >>> 33) % 2 ^ 64
  let h4 := h3 * 0xc4ceb9fe1a85ec53 % 2 ^ 64
  (h4 ^^^ h4 >>> 33) % 2 ^ 64

/-- `partitioner::operator size_t()` (mapreduce.h lines 123-129): convert
the key to a 64-bit integer (`keyToU64` stands for the C++ conversion
`uint64_t h = _key`), mix it, return it. -/
def partitioner.toSizeT {K : Type} (keyToU64 : K → Nat) (p : partitioner K) :
    Nat :=
  RAND_INT3_MIX64 (keyToU64 p.key % 2 ^ 64)

/-- `partitioner::operator==` (mapreduce.h lines 133-135): defined as
equality of the underlying keys, `_key == other.key()`. -/
def partitioner.beq {K : Type} [DecidableEq K] (p q : partitioner K) : Bool :=
  decide (p.key = q.key)

/-- The indices at which `job::exec` (mapreduce.h lines 202-216) touches
the `tasks` array of size `ntask`: the writes `tasks[i]` of the loop
`int i = 0; i < ntask - 1`, the unconditional write `tasks[ntask - 1]`,
then the `tasks[i]->start()` loop and the `delete tasks[i]` loop, both
`int i = 0; i < ntask`. Indices are integers, as in the source. -/
def job.execAccesses (ntask : Int) : List Int :=
  ((List.range (ntask - 1).toNat).map (Nat.cast : Nat → Int)) ++
    [ntask - 1] ++
    ((List.range ntask.toNat).map (Nat.cast : Nat → Int)) ++
    ((List.range ntask.toNat).map (Nat.cast : Nat → Int))

lemma chunk_mul_le (S N i : Nat) (hi : i ≤ N) : S / N * i ≤ S :=
  le_trans (Nat.mul_le_mul_left (S / N) hi) (Nat.div_mul_le_self S N)

lemma flatMap_prefixRanges (S N : Nat) :
    ∀ m : Nat,
      (((List.range m).map fun i => (S / N * i, S / N * (i + 1))).flatMap rangeIdx)
        = List.range' 0 (S / N * m) := by
  intro m
  induction m with
  | zero => simp [rangeIdx]
  | succ m ih =>
      rw [List.range_succ, List.map_append, List.flatMap_append, ih]
      have h1 : rangeIdx (S / N * m, S / N * (m + 1)) =
          List.range' (S / N * m) (S / N) := by
        have : S / N * (m + 1) - S / N * m = S / N := by
          rw [Nat.mul_succ, Nat.add_sub_cancel_left]
        simp [rangeIdx, this]
      have h2 : List.range' 0 (S / N * m) 1 ++
          List.range' (0 + 1 * (S / N * m)) (S / N) 1 =
          List.range' 0 (S / N + S / N * m) 1 := List.range'_append 0 _ _ 1
      simp only [List.map_cons, List.map_nil, List.flatMap_cons, List.flatMap_nil,
        List.append_nil, h1]
      simpa [Nat.mul_succ, Nat.add_comm] using h2

/-- The concatenation of the indices of all work ranges is exactly `[0, S)`. -/
lemma flatMap_workRanges (S N : Nat) (hN : 1 ≤ N) :
    (workRanges S N).flatMap rangeIdx = List.range S := by
  have hle : S / N * (N - 1) ≤ S := chunk_mul_le S N (N - 1) (Nat.sub_le N 1)
  rw [workRanges, List.flatMap_append, flatMap_prefixRanges S N (N - 1)]
  have hlast : rangeIdx (S / N * (N - 1), S) =
      List.range' (S / N * (N - 1)) (S - S / N * (N - 1)) := rfl
  have h2 : List.range' 0 (S / N * (N - 1)) 1 ++
      List.range' (0 + 1 * (S / N * (N - 1))) (S - S / N * (N - 1)) 1 =
      List.range' 0 ((S - S / N * (N - 1)) + S / N * (N - 1)) 1 :=
    List.range'_append 0 _ _ 1
  have h3 : (S - S / N * (N - 1)) + S / N * (N - 1) = S := Nat.sub_add_cancel hle
  rw [List.range_eq_range']
  simp only [List.flatMap_cons, List.flatMap_nil, List.append_nil, hlast]
  rw [h3] at h2
  simpa using h2

lemma workRanges_length (S N : Nat) (hN : 1 ≤ N) :
    (workRanges S N).length = N := by
  simp [workRanges]; omega

lemma workRanges_getElem_lt (S N i : Nat) (hi : i < N - 1) :
    (workRanges S N)[i]? = some (S / N * i, S / N * (i + 1)) := by
  rw [workRanges, List.getElem?_append]
  simp [hi]

lemma workRanges_getElem_last (S N : Nat) :
    (workRanges S N)[N - 1]? = some (S / N * (N - 1), S) := by
  rw [workRanges, List.getElem?_append]
  simp

lemma workRanges_pairwise (S N : Nat) :
    List.Pairwise (fun a b : Nat × Nat => a.2 ≤ b.1) (workRanges S N) := by
  rw [workRanges, List.pairwise_append]
  refine ⟨?_, by simp, ?_⟩
  · rw [List.pairwise_map]
    exact (List.pairwise_lt_range (N - 1)).imp
      (fun {i j} hij => Nat.mul_le_mul_left (S / N) hij)
  · intro a ha b hb
    simp only [List.mem_map, List.mem_range] at ha
    obtain ⟨i, hi, rfl⟩ := ha
    simp only [List.mem_singleton] at hb
    subst hb
    exact Nat.mul_le_mul_left (S / N) (by omega)

/-- C1: for every dataset size `S` and worker count `N ≥ 1`, `job::exec`
partitions the index space exactly: there are `N` ranges, worker
`i ≤ N-2` gets `[⌊S/N⌋*i, ⌊S/N⌋*(i+1))`, the last worker gets
`[⌊S/N⌋*(N-1), S)`, the ranges are pairwise disjoint (each ends no later
than any later one begins), their indices concatenate to exactly
`[0, S)` (union with no overlap and no gap), and every non-last range
has size `⌊S/N⌋`. -/
theorem exec_partitions_exactly (S N : Nat) (hN : 1 ≤ N) :
    (workRanges S N).length = N ∧
    (∀ i, i < N - 1 → (workRanges S N)[i]? = some (S / N * i, S / N * (i + 1))) ∧
    (workRanges S N)[N - 1]? = some (S / N * (N - 1), S) ∧
    List.Pairwise (fun a b : Nat × Nat => a.2 ≤ b.1) (workRanges S N) ∧
    (workRanges S N).flatMap rangeIdx = List.range S ∧
    (∀ i, i < N - 1 →
      ((workRanges S N)[i]?).map (fun r => r.2 - r.1) = some (S / N)) := by
  refine ⟨workRanges_length S N hN,
    fun i hi => workRanges_getElem_lt S N i hi,
    workRanges_getElem_last S N,
    workRanges_pairwise S N,
    flatMap_workRanges S N hN, ?_⟩
  intro i hi
  rw [workRanges_getElem_lt S N i hi]
  simp [Nat.mul_succ]

/-- Witness for C1 at `S = 7`, `N = 3`, worker `i = 1`. -/
theorem exec_partitions_exactly_witness :
    (workRanges 7 3).length = 3 ∧
    (workRanges 7 3)[1]? = some (7 / 3 * 1, 7 / 3 * (1 + 1)) ∧
    (workRanges 7 3)[3 - 1]? = some (7 / 3 * (3 - 1), 7) ∧
    (workRanges 7 3).flatMap rangeIdx = List.range 7 ∧
    ((workRanges 7 3)[1]?).map (fun r => r.2 - r.1) = some (7 / 3) :=
  have h := exec_partitions_exactly 7 3 (by decide)
  ⟨h.1, h.2.1 1 (by decide), h.2.2.1, h.2.2.2.2.1, h.2.2.2.2.2 1 (by decide)⟩

/-- C3: when the worker count `N` exceeds the dataset size `S`, the chunk
`⌊S/N⌋` is 0, every non-last range is the empty range `[0, 0)`, the last
worker's range `[⌊S/N⌋*(N-1), S)` is the whole dataset `[0, S)`, and the
ranges still cover `[0, S)` exactly (nothing lost, nothing duplicated). -/
theorem exec_degenerate_split (S N : Nat) (hN : 1 ≤ N) (hS : S < N) :
    S / N = 0 ∧
    (∀ i, i < N - 1 → (workRanges S N)[i]? = some (0, 0)) ∧
    S / N * (N - 1) = 0 ∧
    (workRanges S N)[N - 1]? = some (0, S) ∧
    (workRanges S N).flatMap rangeIdx = List.range S := by
  have h0 : S / N = 0 := Nat.div_eq_of_lt hS
  refine ⟨h0, ?_, by rw [h0]; ring, ?_, flatMap_workRanges S N hN⟩
  · intro i hi
    rw [workRanges_getElem_lt S N i hi, h0]
    simp
  · have := workRanges_getElem_last S N
    rwa [h0, Nat.zero_mul] at this

/-- Witness for C3 at `S = 2`, `N = 5`, worker `i = 2`. -/
theorem exec_degenerate_split_witness :
    2 / 5 = 0 ∧
    (workRanges 2 5)[2]? = some (0, 0) ∧
    2 / 5 * (5 - 1) = 0 ∧
    (workRanges 2 5)[5 - 1]? = some (0, 2) ∧
    (workRanges 2 5).flatMap rangeIdx = List.range 2 :=
  have h := exec_degenerate_split 2 5 (by decide) (by decide)
  ⟨h.1, h.2.1 2 (by decide), h.2.2.1, h.2.2.2.1, h.2.2.2.2⟩

lemma slice_append {R : Type} (ds : List R) (a b c : Nat) (hab : a ≤ b)
    (hbc : b ≤ c) : slice ds a b ++ slice ds b c = slice ds a c := by
  unfold slice
  have hdrop : ds.drop b = (ds.drop a).drop (b - a) := by
    rw [List.drop_drop]; congr 1; omega
  have hc : c - a = (b - a) + (c - b) := by omega
  rw [hdrop, hc, List.take_add]

lemma flatten_prefixSlices {R : Type} (ds : List R) (S N : Nat) :
    ∀ m : Nat,
      ((((List.range m).map fun i => (S / N * i, S / N * (i + 1))).map
          fun r => slice ds r.1 r.2).flatten)
        = slice ds 0 (S / N * m) := by
  intro m
  induction m with
  | zero => simp [slice]
  | succ m ih =>
      rw [List.range_succ, List.map_append, List.map_append,
        List.flatten_append, ih]
      simp only [List.map_cons, List.map_nil, List.flatten_cons,
        List.flatten_nil, List.append_nil]
      exact slice_append ds 0 (S / N * m) (S / N * (m + 1)) (Nat.zero_le _)
        (Nat.mul_le_mul_left _ (by omega))

/-- The per-worker slices concatenate back to the whole dataset. -/
lemma flatten_slices {R : Type} (ds : List R) (N : Nat) (hN : 1 ≤ N) :
    (job.slices ds N).flatten = ds := by
  rw [job.slices, workRanges, List.map_append, List.flatten_append,
    flatten_prefixSlices ds ds.length N (N - 1)]
  simp only [List.map_cons, List.map_nil, List.flatten_cons,
    List.flatten_nil, List.append_nil]
  rw [slice_append ds 0 (ds.length / N * (N - 1)) ds.length (Nat.zero_le _)
    (chunk_mul_le _ _ _ (Nat.sub_le N 1))]
  simp [slice]

lemma flatten_replicate_nil {α : Type} :
    ∀ n : Nat, (List.replicate n ([] : List α)).flatten = [] := by
  intro n
  induction n with
  | zero => rfl
  | succ n ih => simp [List.replicate_succ, ih]

/-- Any interleaved execution order is a permutation of the
concatenation of the per-worker record lists. -/
lemma Interleaving.perm_flatten {α : Type} {lss : List (List α)} {l : List α}
    (h : Interleaving lss l) : l.Perm lss.flatten := by
  induction h with
  | done n => rw [flatten_replicate_nil]
  | step pre x xs post l h ih =>
      have h1 : (x :: l).Perm (x :: (pre.flatten ++ (xs ++ post.flatten))) := by
        refine List.Perm.cons x ?_
        simpa [List.flatten_append] using ih
      have h2 : (x :: (pre.flatten ++ (xs ++ post.flatten))).Perm
          (pre.flatten ++ x :: (xs ++ post.flatten)) := List.perm_middle.symm
      have h3 := h1.trans h2
      simpa [List.flatten_append] using h3

lemma Interleaving.nil_cons {α : Type} {lss : List (List α)} {l : List α}
    (h : Interleaving lss l) : Interleaving ([] :: lss) l := by
  induction h with
  | done n => exact Interleaving.done (n + 1)
  | step pre x xs post l h ih => exact Interleaving.step ([] :: pre) x xs post l ih

/-- Running the workers one after another in order is one legal
interleaving. -/
lemma Interleaving.flatten_self {α : Type} (lss : List (List α)) :
    Interleaving lss lss.flatten := by
  induction lss with
  | nil => exact Interleaving.done 0
  | cons w lss ih =>
      induction w with
      | nil => exact Interleaving.nil_cons ih
      | cons x xs ihw => exact Interleaving.step [] x xs lss _ ihw

/-- With a single worker the only interleaving is that worker's list. -/
lemma interleaving_single {α : Type} {lss : List (List α)} {l : List α}
    (h : Interleaving lss l) : ∀ {w : List α}, lss = [w] → l = w := by
  induction h with
  | done n =>
      intro w hw
      have hn : n = 1 := by
        have := congrArg List.length hw
        simpa using this
      subst hn
      simp only [List.replicate_succ, List.replicate_zero, List.cons.injEq] at hw
      exact hw.1
  | step pre x xs post l h ih =>
      intro w hw
      rcases pre with _ | ⟨p, pre⟩
      · simp only [List.nil_append, List.cons.injEq] at hw
        obtain ⟨hw1, hw2⟩ := hw
        subst hw2
        rw [ih (w := xs) rfl]
        exact hw1
      · simp only [List.cons_append, List.cons.injEq] at hw
        exact absurd hw.2 (List.append_ne_nil_of_right_ne_nil _ (by simp))

/-- C2: with `workerCount = 1` the single worker's range is the entire
dataset, the only interleaving of its loop is the dataset itself in
original order, and the store produced by `exec` is exactly the
sequential fold that applies Mapper then Combiner to every record of
the dataset in dataset order. -/
theorem single_worker_equiv {R K V : Type} [DecidableEq K] (m : mapper R K V)
    (plusEq : V → V → V) (dflt : V) (ds : List R) :
    job.slices ds 1 = [ds] ∧
    (∀ l, Interleaving (job.slices ds 1) l → l = ds) ∧
    job.execSeq m plusEq dflt ds 1 = seqMapCombine m plusEq dflt ds := by
  have hsl : job.slices ds 1 = [ds] := by
    simp [job.slices, workRanges, slice]
  refine ⟨hsl, ?_, ?_⟩
  · intro l hl
    rw [hsl] at hl
    exact interleaving_single hl rfl
  · rw [job.execSeq, hsl]
    rfl

/-- Witness for C2: a three-record dataset, keys `r % 2`, values `r`,
merge `+`. -/
theorem single_worker_equiv_witness :
    job.slices [0, 1, 2] 1 = [[0, 1, 2]] ∧
    job.execSeq (mapper.mk (fun r : Nat => r % 2) fun r => r) (· + ·) 0
        [0, 1, 2] 1
      = seqMapCombine (mapper.mk (fun r : Nat => r % 2) fun r => r) (· + ·) 0
        [0, 1, 2] :=
  have h := single_worker_equiv (mapper.mk (fun r : Nat => r % 2) fun r => r)
    (· + ·) 0 [0, 1, 2]
  ⟨h.1, h.2.2⟩

/-- C5: every worker's record list is a contiguous slice of the dataset,
processed in dataset order by `task::run`; for each record the task
issues exactly the sequence lock(key) / access-and-merge(key) /
unlock(key) for the record's mapper key, the merge stores the combined
value into that key's looked-up-or-default-created entry, and the store
entry of every other key is left untouched by that step. -/
theorem worker_step_sequence {R K V : Type} [DecidableEq K] (m : mapper R K V)
    (plusEq : V → V → V) (dflt : V) (ds : List R) (N : Nat) :
    (∀ w ∈ job.slices ds N, ∃ b e, w = (ds.drop b).take e) ∧
    (∀ rs : List R, taskTrace m rs = rs.flatMap fun r =>
      [Event.lock (m.key r), Event.access (m.key r), Event.unlock (m.key r)]) ∧
    (∀ (s : Store K V) (r : R),
      task.step m plusEq dflt s r (m.key r) =
        some (plusEq (Store.getOrCreate s dflt (m.key r)) (m.value r))) ∧
    (∀ (s : Store K V) (r : R) (q : K), q ≠ m.key r →
      task.step m plusEq dflt s r q = s q) := by
  refine ⟨?_, ?_, ?_, ?_⟩
  · intro w hw
    simp only [job.slices, List.mem_map] at hw
    obtain ⟨r, _, rfl⟩ := hw
    exact ⟨r.1, r.2 - r.1, rfl⟩
  · intro rs
    induction rs with
    | nil => rfl
    | cons r rs ih => simp [taskTrace, ih]
  · intro s r
    simp [task.step, Store.set]
  · intro s r q hq
    simp [task.step, Store.set, hq]

/-- Witness for C5: the step on record `3` (key `1`) leaves the entry of
key `0` unchanged. -/
theorem worker_step_sequence_witness :
    task.step (mapper.mk (fun r : Nat => r % 2) fun r => r) (· + ·) 0
      Store.empty 3 0 = none :=
  (worker_step_sequence (mapper.mk (fun r : Nat => r % 2) fun r => r)
    (· + ·) 0 [] 1).2.2.2 Store.empty 3 0 (by decide)

lemma foldl_runOn_nil {R K V : Type} [DecidableEq K] (m : mapper R K V)
    (plusEq : V → V → V) (dflt : V) :
    ∀ (ws : List (List R)) (s : Store K V), (∀ w ∈ ws, w = []) →
      ws.foldl (fun s w => task.runOn m plusEq dflt s w) s = s := by
  intro ws
  induction ws with
  | nil => intro s _; rfl
  | cons w ws ih =>
      intro s h
      have hw : w = [] := h w (by simp)
      subst hw
      exact ih s fun w hw => h w (by simp [hw])

/-- C6: `exec` on a dataset of size 0 with any worker count `N ≥ 1`
gives every worker an empty range, issues no lock / access / unlock
event at all, and — under every interleaving as well as under the
sequential schedule — creates no entry in the output store. -/
theorem exec_empty_dataset {R K V : Type} [DecidableEq K] (m : mapper R K V)
    (plusEq : V → V → V) (dflt : V) (ds : List R) (hds : ds.length = 0)
    (N : Nat) (hN : 1 ≤ N) :
    (∀ w ∈ job.slices ds N, w = []) ∧
    (∀ w ∈ job.slices ds N, taskTrace m w = []) ∧
    (∀ l, Interleaving (job.slices ds N) l →
      ∀ k, task.runOn m plusEq dflt Store.empty l k = none) ∧
    (∀ k, job.execSeq m plusEq dflt ds N k = none) := by
  have hnil : ds = [] := List.length_eq_zero.mp hds
  subst hnil
  have hsl : ∀ w ∈ job.slices ([] : List R) N, w = [] := by
    intro w hw
    simp only [job.slices, List.mem_map] at hw
    obtain ⟨r, _, rfl⟩ := hw
    simp [slice]
  refine ⟨hsl, ?_, ?_, ?_⟩
  · intro w hw
    rw [hsl w hw]
    rfl
  · intro l hl k
    have hperm := hl.perm_flatten
    rw [flatten_slices [] N hN] at hperm
    rw [hperm.eq_nil]
    rfl
  · intro k
    rw [job.execSeq, foldl_runOn_nil m plusEq dflt _ _ hsl]
    rfl

/-- Witness for C6 at `N = 3`, key `5`. -/
theorem exec_empty_dataset_witness :
    job.execSeq (mapper.mk (fun r : Nat => r % 2) fun r => r) (· + ·) 0
      ([] : List Nat) 3 5 = none :=
  (exec_empty_dataset (mapper.mk (fun r : Nat => r % 2) fun r => r)
    (· + ·) 0 ([] : List Nat) rfl 3 (by decide)).2.2.2 5

/-- How `task::run` transforms one store entry: the entry for `k` ends
up holding the fold of the values of exactly the records of the range
whose key is `k`, in processing order. -/
lemma runOn_eval {R K V : Type} [DecidableEq K] (m : mapper R K V)
    (plusEq : V → V → V) (dflt : V) :
    ∀ (l : List R) (s : Store K V) (k : K),
      task.runOn m plusEq dflt s l k =
        applyVals plusEq dflt (s k)
          ((l.filter fun r => m.key r = k).map m.value) := by
  intro l
  induction l with
  | nil => intro s k; rfl
  | cons r l ih =>
      intro s k
      have h3 : task.runOn m plusEq dflt s (r :: l) k =
          task.runOn m plusEq dflt (task.step m plusEq dflt s r) l k := rfl
      by_cases h : m.key r = k
      · have h2 : task.step m plusEq dflt s r k =
            some (plusEq ((s k).getD dflt) (m.value r)) := by
          subst h
          simp [task.step, Store.set, Store.getOrCreate]
        rw [h3, ih, h2, List.filter_cons_of_pos (by simpa using h),
          List.map_cons]
        rfl
      · have h2 : task.step m plusEq dflt s r k = s k := by
          simp only [task.step, Store.set]
          rw [if_neg fun hk => h hk.symm]
        rw [h3, ih, h2, List.filter_cons_of_neg (by simpa using h)]

lemma applyVals_some {V : Type} (plusEq : V → V → V) (dflt : V) :
    ∀ (vs : List V) (a : V),
      applyVals plusEq dflt (some a) vs = some (vs.foldl plusEq a) := by
  intro vs
  induction vs with
  | nil => intro a; rfl
  | cons v vs ih => intro a; simpa [applyVals] using ih (plusEq a v)

lemma foldl_perm_comm_assoc {V : Type} (plusEq : V → V → V)
    (hcomm : ∀ a b, plusEq a b = plusEq b a)
    (hassoc : ∀ a b c, plusEq (plusEq a b) c = plusEq a (plusEq b c))
    {vs vs' : List V} (hp : vs.Perm vs') (a : V) :
    vs.foldl plusEq a = vs'.foldl plusEq a :=
  hp.foldl_eq' (fun x _ y _ z => by rw [hassoc, hcomm x y, ← hassoc]) a

/-- A commutative and associative merge makes the accumulated entry
independent of the order the values arrive in. -/
lemma applyVals_none_perm {V : Type} (plusEq : V → V → V) (dflt : V)
    (hcomm : ∀ a b, plusEq a b = plusEq b a)
    (hassoc : ∀ a b c, plusEq (plusEq a b) c = plusEq a (plusEq b c))
    {vs vs' : List V} (hp : vs.Perm vs') :
    applyVals plusEq dflt none vs = applyVals plusEq dflt none vs' := by
  rcases vs with _ | ⟨v, rest⟩
  · rw [(hp.symm).eq_nil]
  · rcases vs' with _ | ⟨v', rest'⟩
    · exact absurd hp.eq_nil (by simp)
    · have e1 : applyVals plusEq dflt none (v :: rest) =
          some ((v :: rest).foldl plusEq dflt) := applyVals_some _ _ rest (plusEq dflt v)
      have e2 : applyVals plusEq dflt none (v' :: rest') =
          some ((v' :: rest').foldl plusEq dflt) :=
        applyVals_some _ _ rest' (plusEq dflt v')
      rw [e1, e2, foldl_perm_comm_assoc plusEq hcomm hassoc hp dflt]

lemma execSeq_foldl_flatten {R K V : Type} [DecidableEq K] (m : mapper R K V)
    (plusEq : V → V → V) (dflt : V) :
    ∀ (ws : List (List R)) (s : Store K V),
      ws.foldl (fun s w => task.runOn m plusEq dflt s w) s =
        task.runOn m plusEq dflt s ws.flatten := by
  intro ws
  induction ws with
  | nil => intro s; rfl
  | cons w ws ih =>
      intro s
      rw [List.foldl_cons, ih, List.flatten_cons, task.runOn, task.runOn,
        task.runOn, List.foldl_append]

/-- C4: if the user-supplied merge is commutative and associative, the
final accumulated value stored for a key is independent of the worker
count and of the schedule: for every `N ≥ 1`, the sequential execution
and every interleaved execution of the `N` workers both leave each key
with the value of the plain fold over the whole dataset — so worker
counts 1, 2 and S (and any others) all agree key by key. -/
theorem comm_assoc_worker_count_independent {R K V : Type} [DecidableEq K]
    (m : mapper R K V) (plusEq : V → V → V) (dflt : V)
    (hcomm : ∀ a b, plusEq a b = plusEq b a)
    (hassoc : ∀ a b c, plusEq (plusEq a b) c = plusEq a (plusEq b c))
    (ds : List R) (N : Nat) (hN : 1 ≤ N) (l : List R)
    (hl : Interleaving (job.slices ds N) l) (k : K) :
    job.execSeq m plusEq dflt ds N k =
      task.runOn m plusEq dflt Store.empty ds k ∧
    task.runOn m plusEq dflt Store.empty l k =
      task.runOn m plusEq dflt Store.empty ds k := by
  constructor
  · rw [job.execSeq, execSeq_foldl_flatten, flatten_slices ds N hN]
  · have hperm : l.Perm ds := by
      have h := hl.perm_flatten
      rwa [flatten_slices ds N hN] at h
    rw [runOn_eval, runOn_eval]
    exact applyVals_none_perm plusEq dflt hcomm hassoc
      ((hperm.filter _).map _)

/-- Witness for C4: dataset `[1, 2, 3, 4]`, two workers, the
worker-after-worker schedule, merge `+`, key `1`. -/
theorem comm_assoc_worker_count_independent_witness :
    task.runOn (mapper.mk (fun r : Nat => r % 2) fun r => r) (· + ·) 0
        Store.empty ((job.slices [1, 2, 3, 4] 2).flatten) 1 =
      task.runOn (mapper.mk (fun r : Nat => r % 2) fun r => r) (· + ·) 0
        Store.empty [1, 2, 3, 4] 1 :=
  (comm_assoc_worker_count_independent
    (mapper.mk (fun r : Nat => r % 2) fun r => r) (· + ·) 0
    (fun a b => Nat.add_comm a b) (fun a b c => Nat.add_assoc a b c)
    [1, 2, 3, 4] 2 (by decide) _ (Interleaving.flatten_self _) 1).2

lemma foldl_add_ones :
    ∀ (n a : Nat), (List.replicate n (1 : Nat)).foldl (· + ·) a = a + n := by
  intro n
  induction n with
  | zero => intro a; rfl
  | succ n ih =>
      intro a
      rw [List.replicate_succ, List.foldl_cons, ih]
      omega

/-- C8: each lock-protected lookup-merge is one serialized atomic step
of the schedule, and with the counting combine (each record contributes
the value 1, merge is `+`) no update is lost: under every worker count
`N` with `1 ≤ N ≤ S` and every interleaving, the final entry of a key
is exactly the number of dataset records mapped to that key (and keys
with no records have no entry). -/
theorem counting_no_lost_updates {R K : Type} [DecidableEq K]
    (mkey : R → K) (ds : List R) (N : Nat) (h1 : 1 ≤ N) (h2 : N ≤ ds.length)
    (l : List R) (hl : Interleaving (job.slices ds N) l) (k : K) :
    task.runOn (mapper.mk mkey fun _ => (1 : Nat)) (· + ·) 0 Store.empty l k =
      if (ds.filter fun r => mkey r = k).length = 0 then none
      else some (ds.filter fun r => mkey r = k).length := by
  have hmain := (comm_assoc_worker_count_independent
    (mapper.mk mkey fun _ => (1 : Nat)) (· + ·) 0
    (fun a b => Nat.add_comm a b) (fun a b c => Nat.add_assoc a b c)
    ds N h1 l hl k).2
  rw [hmain, runOn_eval]
  have hmap : ((ds.filter fun r => mkey r = k).map
      (mapper.mk mkey fun _ => (1 : Nat)).value) =
      List.replicate (ds.filter fun r => mkey r = k).length 1 := by
    generalize (ds.filter fun r => mkey r = k) = fl
    induction fl with
    | nil => rfl
    | cons x fl ih => simp [List.replicate_succ, ih]
  rw [hmap]
  rcases hlen : (ds.filter fun r => mkey r = k).length with _ | n
  · rfl
  · rw [List.replicate_succ]
    have : applyVals (· + ·) 0 (Store.empty k) (1 :: List.replicate n 1) =
        applyVals (· + ·) 0 (some 1) (List.replicate n 1) := rfl
    rw [this, applyVals_some, foldl_add_ones]
    simp [Nat.add_comm]

/-- Witness for C8: dataset `[0, 1, 2, 3]`, keys `r % 2`, two workers,
worker-after-worker schedule; key `0` is hit by exactly 2 records. -/
theorem counting_no_lost_updates_witness :
    task.runOn (mapper.mk (fun r : Nat => r % 2) fun _ => (1 : Nat)) (· + ·) 0
      Store.empty ((job.slices [0, 1, 2, 3] 2).flatten) 0 = some 2 := by
  have h := counting_no_lost_updates (fun r : Nat => r % 2) [0, 1, 2, 3] 2
    (by decide) (by decide) _ (Interleaving.flatten_self _) 0
  rw [h]
  rfl

/-- C7: two partitioners compare equal exactly when their underlying
keys are equal (`operator==` is `_key == other.key()`), and the slot
derivation `operator size_t()` is a pure function of the key alone:
partitioners holding equal keys always convert to the same slot value. -/
theorem partitioner_eq_and_slot_deterministic {K : Type} [DecidableEq K]
    (keyToU64 : K → Nat) (p q : partitioner K) :
    (partitioner.beq p q = true ↔ p.key = q.key) ∧
    (p.key = q.key →
      partitioner.toSizeT keyToU64 p = partitioner.toSizeT keyToU64 q) := by
  constructor
  · simp [partitioner.beq]
  · intro h
    rw [partitioner.toSizeT, partitioner.toSizeT, h]

/-- Witness for C7 at key `5`. -/
theorem partitioner_eq_and_slot_deterministic_witness :
    partitioner.beq (partitioner.mk 5) (partitioner.mk (5 : Nat)) = true ∧
    partitioner.toSizeT (fun n => n) (partitioner.mk 5) =
      partitioner.toSizeT (fun n => n) (partitioner.mk (5 : Nat)) :=
  have h := partitioner_eq_and_slot_deterministic (fun n : Nat => n)
    (partitioner.mk 5) (partitioner.mk 5)
  ⟨h.1.mpr rfl, h.2 rfl⟩

/-- C9: under the precondition `workerCount ≥ 1` every access
`job::exec` makes to its `tasks` array is in bounds — each touched
index `j` satisfies `0 ≤ j < ntask` — and the loops touch exactly the
indices `0 .. ntask-1`; the precondition is necessary: with
`workerCount = 0` the unconditional access `tasks[ntask - 1]` uses
index `-1`, which is out of bounds. -/
theorem exec_accesses_in_bounds :
    (∀ ntask : Int, 1 ≤ ntask →
      (∀ j ∈ job.execAccesses ntask, 0 ≤ j ∧ j < ntask) ∧
      (∀ i : Int, 0 ≤ i → i < ntask → i ∈ job.execAccesses ntask)) ∧
    (∃ j ∈ job.execAccesses 0, j < 0) := by
  have hmem : ∀ (n : Nat) (j : Int),
      j ∈ (List.range n).map (Nat.cast : Nat → Int) → 0 ≤ j ∧ j < (n : Int) := by
    intro n j hj
    rw [List.mem_map] at hj
    obtain ⟨a, ha, rfl⟩ := hj
    rw [List.mem_range] at ha
    omega
  have hmem2 : ∀ (n : Nat) (i : Int), 0 ≤ i → i < (n : Int) →
      i ∈ (List.range n).map (Nat.cast : Nat → Int) := by
    intro n i h0 hlt
    rw [List.mem_map]
    exact ⟨i.toNat, by rw [List.mem_range]; omega, by omega⟩
  constructor
  · intro ntask h
    constructor
    · intro j hj
      unfold job.execAccesses at hj
      rcases List.mem_append.mp hj with h1 | h1
      · rcases List.mem_append.mp h1 with h2 | h2
        · rcases List.mem_append.mp h2 with h3 | h3
          · have := hmem _ _ h3
            omega
          · rw [List.mem_singleton] at h3
            omega
        · have := hmem _ _ h2
          omega
      · have := hmem _ _ h1
        omega
    · intro i h0 hlt
      unfold job.execAccesses
      exact List.mem_append.mpr (Or.inl (List.mem_append.mpr (Or.inr
        (hmem2 ntask.toNat i h0 (by omega)))))
  · refine ⟨-1, ?_, by decide⟩
    simp [job.execAccesses]

/-- Witness for C9 at `ntask = 3`, index `2`. -/
theorem exec_accesses_in_bounds_witness :
    ((0 : Int) ≤ 2 ∧ (2 : Int) < 3) ∧ (2 : Int) ∈ job.execAccesses 3 :=
  have h := exec_accesses_in_bounds.1 3 (by decide)
  ⟨h.1 2 (by decide), h.2 2 (by decide) (by decide)⟩

lemma disciplined_taskTrace {R K V : Type} [DecidableEq K] (m : mapper R K V) :
    ∀ rs : List R, disciplined (taskTrace m rs) = true := by
  intro rs
  induction rs with
  | nil => rfl
  | cons r rs ih => simp [taskTrace, disciplined, ih]

lemma taskTrace_lock_balance {R K V : Type} (m : mapper R K V) :
    ∀ (rs : List R) (p q : List (Event K)), taskTrace m rs = p ++ q →
      countUnlocks p ≤ countLocks p ∧ countLocks p ≤ countUnlocks p + 1 := by
  intro rs
  induction rs with
  | nil =>
      intro p q h
      have hp : p = [] := by
        cases p with
        | nil => rfl
        | cons e p => simp [taskTrace] at h
      subst hp
      simp [countLocks, countUnlocks]
  | cons r rs ih =>
      intro p q h
      simp only [taskTrace] at h
      rcases p with _ | ⟨e1, p⟩
      · simp [countLocks, countUnlocks]
      rcases p with _ | ⟨e2, p⟩
      · simp only [List.cons_append, List.nil_append, List.cons.injEq] at h
        obtain ⟨he1, -⟩ := h
        subst he1
        simp [countLocks, countUnlocks, isLock, isUnlock]
      rcases p with _ | ⟨e3, p⟩
      · simp only [List.cons_append, List.nil_append, List.cons.injEq] at h
        obtain ⟨he1, he2, -⟩ := h
        subst he1
        subst he2
        simp [countLocks, countUnlocks, isLock, isUnlock]
      · simp only [List.cons_append, List.cons.injEq] at h
        obtain ⟨he1, he2, he3, hrest⟩ := h
        subst he1
        subst he2
        subst he3
        have hih := ih p q hrest
        simp only [countLocks, countUnlocks, List.countP_cons, isLock,
          isUnlock] at hih ⊢
        omega

/-- C10: in every iteration of the worker loop the released lock names
the same key as the acquired one (both computed by the mapper's pure,
deterministic `key()` on the same record), the store access between
them is to that same key, and the worker holds at most one per-key lock
at any time, releasing it before advancing to the next record: the
trace is a sequence of complete `lock k; access k; unlock k` blocks,
and in every trace decomposition `p ++ q` the releases seen in `p`
never exceed the acquisitions and trail them by at most one. -/
theorem lock_unlock_discipline {R K V : Type} [DecidableEq K]
    (m : mapper R K V) (rs : List R) :
    disciplined (taskTrace m rs) = true ∧
    (∀ p q : List (Event K), taskTrace m rs = p ++ q →
      countUnlocks p ≤ countLocks p ∧ countLocks p ≤ countUnlocks p + 1) :=
  ⟨disciplined_taskTrace m rs, taskTrace_lock_balance m rs⟩

/-- Witness for C10: two records with keys `0` and `1`, split after the
first lock event. -/
theorem lock_unlock_discipline_witness :
    disciplined (taskTrace (mapper.mk (fun r : Nat => r % 2) fun r => r)
      [0, 1]) = true ∧
    countUnlocks ([Event.lock 0] : List (Event Nat)) ≤
      countLocks ([Event.lock 0] : List (Event Nat)) ∧
    countLocks ([Event.lock 0] : List (Event Nat)) ≤
      countUnlocks ([Event.lock 0] : List (Event Nat)) + 1 :=
  have h := lock_unlock_discipline
    (mapper.mk (fun r : Nat => r % 2) fun r => r) [0, 1]
  ⟨h.1, h.2 [Event.lock 0] [Event.access 0, Event.unlock 0, Event.lock 1,
    Event.access 1, Event.unlock 1] rfl⟩

end mapreduce

end ulib
